import Mathlib

/-!
Verification development for the wordscrape repository's definition
extractor (`build_worddefs.py`).  The Python source is shallowly embedded:
strings are modelled as `List Char`, character scanners become structural
recursions, the mutual recursion between template expansion, rendering and
parameter parsing is realised with an explicit fuel argument (the Python
recursion strictly shrinks the text at every nested call, so any fuel at
least quadratic in the input length is never exhausted), and the streaming
XML pass becomes a fold over a list of page records returning `Except`
(a raised Python exception is modelled by `Except.error`).
`extract_definitions` (the heading walker plus wikitext cleaner) is the one
routine the claims never depend on; the pass/frontier machinery is therefore
parameterised over it so the corresponding theorems hold for every extractor.
-/

/-- ASCII/latin-1 whitespace, the class stripped by Python `str.strip()`
and matched by `\s` in the source's regexes. -/
def py_is_space (c : Char) : Bool :=
  c == ' ' || c == '\t' || c == '\n' || c == '\r' || c == '\x0b' || c == '\x0c'

/-- Python `str.strip()` on a character list. -/
def py_strip (cs : List Char) : List Char :=
  ((cs.dropWhile py_is_space).reverse.dropWhile py_is_space).reverse

/-- Python `str.rstrip()`. -/
def py_rstrip (cs : List Char) : List Char :=
  (cs.reverse.dropWhile py_is_space).reverse

/-- Python `str.strip(chars)` for an explicit character set. -/
def py_strip_chars (bad : List Char) (cs : List Char) : List Char :=
  ((cs.dropWhile (· ∈ bad)).reverse.dropWhile (· ∈ bad)).reverse

/-- Python `str.lower()` (ASCII case rules). -/
def lower_l (cs : List Char) : List Char := cs.map Char.toLower

/-- `str.strip()` packaged for `String`. -/
def py_strip_s (s : String) : String := String.mk (py_strip s.toList)

/-- `str.lower()` packaged for `String`. -/
def py_lower_s (s : String) : String := String.mk (lower_l s.toList)

/-- Case-insensitive prefix test: does `cs` start with the (lower-case)
pattern `pat`?  Models a `re.IGNORECASE` literal match. -/
def starts_with_ci : List Char → List Char → Bool
  | [], _ => true
  | _ :: _, [] => false
  | p :: ps, c :: cs => c.toLower == p && starts_with_ci ps cs

/-- `build_worddefs._extract_template`, the scan loop (lines 170-185).
Walks the suffix starting at the opener, counting `{{`/`}}` depth; on
success returns the consumed span (opener and closer included) paired with
the remaining text, mirroring the returned end index.  `none` models the
`(None, None)` "unterminated" result. -/
def extract_loop : List Char → Nat → Option (List Char × List Char)
  | c1 :: c2 :: rest, depth =>
    if c1 = '{' ∧ c2 = '{' then
      (extract_loop rest (depth + 1)).map (fun p => (c1 :: c2 :: p.1, p.2))
    else if c1 = '}' ∧ c2 = '}' ∧ 0 < depth then
      if depth = 1 then some ([c1, c2], rest)
      else (extract_loop rest (depth - 1)).map (fun p => (c1 :: c2 :: p.1, p.2))
    else
      (extract_loop (c2 :: rest) depth).map (fun p => (c1 :: p.1, p.2))
  | _, _ => none

/-- `_extract_template` proper: strip the outer braces off the consumed
span, exactly `text[start + 2 : idx - 2]` in the source. -/
def extract_template (cs : List Char) : Option (List Char × List Char) :=
  match extract_loop cs 0 with
  | none => none
  | some (consumed, rest) => some ((consumed.drop 2).dropLast.dropLast, rest)

/-- `build_worddefs._split_template_parts` main loop (lines 188-222): split
on `|` only at brace depth 0 and link depth 0; every part is stripped. -/
def split_loop : List Char → Nat → Nat → List Char → List (List Char) → List (List Char)
  | c1 :: c2 :: rest, d, l, cur, parts =>
    if c1 = '{' ∧ c2 = '{' then
      split_loop rest (d + 1) l (cur ++ [c1, c2]) parts
    else if c1 = '}' ∧ c2 = '}' ∧ 0 < d then
      split_loop rest (d - 1) l (cur ++ [c1, c2]) parts
    else if c1 = '[' ∧ c2 = '[' then
      split_loop rest d (l + 1) (cur ++ [c1, c2]) parts
    else if c1 = ']' ∧ c2 = ']' ∧ 0 < l then
      split_loop rest d (l - 1) (cur ++ [c1, c2]) parts
    else if c1 = '|' ∧ d = 0 ∧ l = 0 then
      split_loop (c2 :: rest) d l [] (parts ++ [py_strip cur])
    else
      split_loop (c2 :: rest) d l (cur ++ [c1]) parts
  | [c], d, l, cur, parts =>
    if c = '|' ∧ d = 0 ∧ l = 0 then parts ++ [py_strip cur, py_strip []]
    else parts ++ [py_strip (cur ++ [c])]
  | [], _, _, cur, parts => parts ++ [py_strip cur]

/-- `_split_template_parts` (line 223 drops empty parts). -/
def split_template_parts_l (content : List Char) : List (List Char) :=
  (split_loop content 0 0 [] []).filter (fun p => p ≠ [])

/-- `_split_template_parts` packaged for `String`. -/
def split_template_parts (s : String) : List String :=
  (split_template_parts_l s.toList).map String.mk

/-- `build_worddefs._strip_templates` loop (lines 226-242): characters are
kept only at brace depth 0. -/
def strip_loop : List Char → Nat → List Char
  | c1 :: c2 :: rest, d =>
    if c1 = '{' ∧ c2 = '{' then strip_loop rest (d + 1)
    else if 0 < d ∧ c1 = '}' ∧ c2 = '}' then strip_loop rest (d - 1)
    else (if d = 0 then [c1] else []) ++ strip_loop (c2 :: rest) d
  | [c], d => if d = 0 then [c] else []
  | [], _ => []

/-- `_strip_templates`. -/
def strip_templates (cs : List Char) : List Char := strip_loop cs 0

/-- `build_worddefs._strip_wiki_prefix` (lines 245-251). -/
def strip_wiki_pref (cs : List Char) : List Char :=
  if ':' ∈ cs then
    let pre := cs.takeWhile (· ≠ ':')
    let rest := (cs.dropWhile (· ≠ ':')).drop 1
    if lower_l pre ∈ ["w".toList, "wikipedia".toList, "wiktionary".toList,
        "s".toList, "quote".toList, "commons".toList] then rest
    else cs
  else cs

/-- Python dict assignment `d[k] = v`: overwrite in place, else append. -/
def py_dict_set {α β : Type} [DecidableEq α] (d : List (α × β)) (k : α) (v : β) :
    List (α × β) :=
  if (d.lookup k).isSome then d.map (fun kv => if kv.1 = k then (k, v) else kv)
  else d ++ [(k, v)]

/-- Python `named.get(k)`. -/
def named_get (named : List (List Char × List Char)) (k : List Char) : Option (List Char) :=
  named.lookup k

/-- Python `a or b or c` over optional strings: first truthy value
(`None` and the empty string are falsy). -/
def first_truthy : List (Option (List Char)) → Option (List Char)
  | [] => none
  | some v :: rest => if v ≠ [] then some v else first_truthy rest
  | none :: rest => first_truthy rest

/-- `_render_label_template` (lines 357-374): `_`-separated groups,
comma-joined, groups joined by `; `, wrapped in parentheses. -/
def render_label_template (params : List (List Char)) : List Char :=
  if params = [] then []
  else
    let step := fun (acc : List (List Char) × List (List Char)) (p : List Char) =>
      if p = ['_'] then
        (if acc.2 ≠ [] then (acc.1 ++ [List.intercalate ", ".toList acc.2], ([] : List (List Char)))
         else acc)
      else (acc.1, acc.2 ++ [p])
    let gs0 := params.foldl step ([], [])
    let gs := if gs0.2 ≠ [] then gs0.1 ++ [List.intercalate ", ".toList gs0.2] else gs0.1
    if gs = [] then []
    else '(' :: (List.intercalate "; ".toList gs) ++ [')']

/-- `_render_name_template` (lines 377-389). -/
def render_name_template (label : List Char) (params : List (List Char))
    (named : List (List Char × List Char)) : List Char :=
  let details := params
  let details := match first_truthy [named_get named "from".toList, named_get named "origin".toList] with
    | some o => details ++ ["from ".toList ++ o]
    | none => details
  let details := match first_truthy [named_get named "meaning".toList] with
    | some m => details ++ ["meaning ".toList ++ m]
    | none => details
  if details ≠ [] then label ++ " (".toList ++ List.intercalate ", ".toList details ++ [')']
  else label

/-- `_render_qualifier_template` (lines 392-395). -/
def render_qualifier_template (params : List (List Char)) : List Char :=
  if params = [] then []
  else '(' :: List.intercalate ", ".toList params ++ [')']

/-- `_render_usage_template` (lines 398-402). -/
def render_usage_template (params : List (List Char))
    (named : List (List Char × List Char)) : List Char :=
  match params with
  | p :: _ => p
  | [] =>
    (first_truthy [named_get named "text".toList, named_get named "passage".toList,
      named_get named "quote".toList]).getD []

/-- `_render_quote_template` (lines 405-409). -/
def render_quote_template (_params : List (List Char))
    (named : List (List Char × List Char)) : List Char :=
  (first_truthy [named_get named "text".toList, named_get named "passage".toList,
    named_get named "quote".toList]).getD []

/-- Python `s.replace(ab, "")` for a two-character needle. -/
def remove_sub2 (a b : Char) : List Char → List Char
  | c1 :: c2 :: rest =>
    if c1 = a ∧ c2 = b then remove_sub2 a b rest
    else c1 :: remove_sub2 a b (c2 :: rest)
  | l => l

/-- Python `s.replace(ab, repl)` for a two-character needle. -/
def replace_pair (a b : Char) (repl : List Char) : List Char → List Char
  | c1 :: c2 :: rest =>
    if c1 = a ∧ c2 = b then repl ++ replace_pair a b repl rest
    else c1 :: replace_pair a b repl (c2 :: rest)
  | l => l

mutual
/-- `re.sub(r"\s+", " ", ·)`: collapse every whitespace run to one space. -/
def collapse_ws : List Char → List Char
  | [] => []
  | c :: rest => if py_is_space c then ' ' :: collapse_skip rest else c :: collapse_ws rest
/-- Helper for `collapse_ws`: inside a whitespace run. -/
def collapse_skip : List Char → List Char
  | [] => []
  | c :: rest => if py_is_space c then collapse_skip rest else c :: collapse_ws rest
end

/-- ASCII `\w`. -/
def is_word_char (c : Char) : Bool := c.isAlpha || c.isDigit || c == '_'

/-- `PLACE_PREFIXES` (line 119), in source order (regex alternation order). -/
def place_pre_names : List (List Char) :=
  ["c".toList, "r".toList, "s".toList, "co".toList, "par".toList, "dist".toList, "cc".toList]

/-- One alternative of `PLACE_INLINE_RE` tried at the current position:
case-insensitive place code, a slash, then a non-empty `[^\s,;]+` value. -/
def try_place_alt (alt : List Char) (cs : List Char) : Option (List Char × List Char) :=
  if starts_with_ci alt cs then
    match cs.drop alt.length with
    | '/' :: rest2 =>
      let value := rest2.takeWhile (fun c => ¬ (py_is_space c || c == ',' || c == ';'))
      if value ≠ [] then some (value, rest2.drop value.length) else none
    | _ => none
  else none

/-- `PLACE_INLINE_RE` match attempt at one position (alternation order). -/
def try_place_match (cs : List Char) : Option (List Char × List Char) :=
  place_pre_names.findSome? (fun alt => try_place_alt alt cs)

/-- `PLACE_INLINE_RE.sub(lambda m: m.group(1), ·)` (line 305): replace
`\b<code>/<value>` by `<value>`; `prev_word` carries the `\b` context. -/
def place_inline_go : Nat → Bool → List Char → List Char
  | 0, _, cs => cs
  | _ + 1, _, [] => []
  | fuel + 1, prev_word, c :: rest =>
    if prev_word then c :: place_inline_go fuel (is_word_char c) rest
    else
      match try_place_match (c :: rest) with
      | some (value, rest2) =>
        value ++ place_inline_go fuel (is_word_char (value.getLastD ' ')) rest2
      | none => c :: place_inline_go fuel (is_word_char c) rest

/-- `PLACE_INLINE_RE.sub` entry point. -/
def place_inline_sub (cs : List Char) : List Char :=
  place_inline_go (cs.length + 1) false cs

/-- The `for prefix in PLACE_PREFIXES` loop of `_normalize_place_param`
(lines 299-304): first prefix token whose value is non-empty wins. -/
def place_pre_token_match : List (List Char) → List Char → List Char → Option (List Char)
  | [], _, _ => none
  | pref :: rest, lower, param =>
    let token := pref ++ ['/']
    if token.isPrefixOf lower then
      let value := py_strip (param.drop token.length)
      if value ≠ [] then
        some ("in ".toList ++ value.map (fun c => if c = '_' then ' ' else c))
      else place_pre_token_match rest lower param
    else place_pre_token_match rest lower param

/-- `_normalize_place_param` (lines 284-309). -/
def normalize_place_param (param0 : List Char) : List Char :=
  let param1 := remove_sub2 '<' '<' param0
  let param2 := remove_sub2 '>' '>' param1
  let param3 := py_strip param2
  let param4 := match param3 with
    | '@' :: rest => py_strip rest
    | _ => param3
  let lower := lower_l param4
  let param5 :=
    if "abbrev of:".toList.isPrefixOf lower then
      "abbreviation of ".toList ++ py_strip ((param4.dropWhile (· ≠ ':')).drop 1)
    else if "abbrev of ".toList.isPrefixOf lower then
      "abbreviation of ".toList ++ py_strip (param4.drop 9)
    else if "abbr of:".toList.isPrefixOf lower then
      "abbreviation of ".toList ++ py_strip ((param4.dropWhile (· ≠ ':')).drop 1)
    else if "abbr of ".toList.isPrefixOf lower then
      "abbreviation of ".toList ++ py_strip (param4.drop 7)
    else param4
  let lower2 := lower_l param5
  match place_pre_token_match place_pre_names lower2 param5 with
  | some out => out
  | none =>
    let param6 := place_inline_sub param5
    let param7 := param6.map (fun c => if c = '/' then ' ' else c)
    let param8 := param7.map (fun c => if c = '_' then ' ' else c)
    py_strip (collapse_ws param8)

/-- `_join_place_parts` (lines 312-326). -/
def join_place_parts (parts : List (List Char)) : List Char :=
  if parts = [] then []
  else
    let combined := parts.foldl
      (fun (acc : List (List Char)) part =>
        if part = [';'] then
          (match acc with
           | [] => [[';']]
           | _ => acc.dropLast ++ [py_rstrip (acc.getLastD [])] ++ [[';']])
        else acc ++ [part]) []
    let text := List.intercalate [' '] combined
    let text2 := replace_pair ' ' ';' [';'] text
    py_strip (collapse_ws text2)

/-- `PLACE_NAMED_FIELDS` (lines 124-132), in source (insertion) order. -/
def place_named_fields : List (List Char × List Char) :=
  [("caplc".toList, "capital".toList), ("capital".toList, "capital".toList),
   ("official".toList, "official name".toList), ("full".toList, "full name".toList),
   ("short".toList, "short name".toList), ("abbr".toList, "abbreviation".toList),
   ("seat".toList, "seat".toList)]

/-- `_render_place_template` (lines 329-354). -/
def render_place_template (params : List (List Char))
    (named : List (List Char × List Char)) : List Char :=
  let parts := params.foldl
    (fun (acc : List (List Char)) param =>
      if param = [] then acc
      else if py_strip param = [';'] then acc ++ [[';']]
      else
        let normalized := normalize_place_param param
        if normalized ≠ [] then acc ++ [normalized] else acc) []
  let text := join_place_parts parts
  let details := place_named_fields.foldl
    (fun (acc : List (List Char)) kv =>
      match named_get named kv.1 with
      | some value =>
        if value ≠ [] then
          let cleaned := py_strip (remove_sub2 '>' '>' (remove_sub2 '<' '<'
            (value.map (fun c => if c = '_' then ' ' else c))))
          if cleaned ≠ [] then acc ++ [kv.2 ++ ": ".toList ++ cleaned] else acc
        else acc
      | none => acc) []
  if details ≠ [] then
    let details_text := List.intercalate "; ".toList details
    if text ≠ [] then text ++ "; ".toList ++ details_text else details_text
  else text

/-- `DEFINITION_TEMPLATES` (lines 56-100); `\x7bterm\x7d` is the `{term}`
placeholder of the Python format strings. -/
def definition_template : String → Option String
  | "abbreviation of" => some "Abbreviation of \x7bterm\x7d"
  | "abbr of" => some "Abbreviation of \x7bterm\x7d"
  | "acronym of" => some "Acronym of \x7bterm\x7d"
  | "alternative form of" => some "Alternative form of \x7bterm\x7d"
  | "alt form" => some "Alternative form of \x7bterm\x7d"
  | "alt form of" => some "Alternative form of \x7bterm\x7d"
  | "alternative spelling of" => some "Alternative spelling of \x7bterm\x7d"
  | "alt spelling of" => some "Alternative spelling of \x7bterm\x7d"
  | "alt sp" => some "Alternative spelling of \x7bterm\x7d"
  | "alt sp of" => some "Alternative spelling of \x7bterm\x7d"
  | "altsp" => some "Alternative spelling of \x7bterm\x7d"
  | "alt spell" => some "Alternative spelling of \x7bterm\x7d"
  | "alt spell of" => some "Alternative spelling of \x7bterm\x7d"
  | "alternative case form of" => some "Alternative case form of \x7bterm\x7d"
  | "alternative letter-case of" => some "Alternative letter-case of \x7bterm\x7d"
  | "alternative capitalization of" => some "Alternative capitalization of \x7bterm\x7d"
  | "alt case" => some "Alternative case form of \x7bterm\x7d"
  | "altform" => some "Alternative form of \x7bterm\x7d"
  | "contraction of" => some "Contraction of \x7bterm\x7d"
  | "clipping of" => some "Clipping of \x7bterm\x7d"
  | "comparative of" => some "Comparative of \x7bterm\x7d"
  | "superlative of" => some "Superlative of \x7bterm\x7d"
  | "initialism of" => some "Initialism of \x7bterm\x7d"
  | "init of" => some "Initialism of \x7bterm\x7d"
  | "misspelling of" => some "Misspelling of \x7bterm\x7d"
  | "plural of" => some "Plural of \x7bterm\x7d"
  | "plural form of" => some "Plural of \x7bterm\x7d"
  | "past tense of" => some "Past tense of \x7bterm\x7d"
  | "past participle of" => some "Past participle of \x7bterm\x7d"
  | "present participle of" => some "Present participle of \x7bterm\x7d"
  | "simple past of" => some "Simple past of \x7bterm\x7d"
  | "obs form" => some "Obsolete form of \x7bterm\x7d"
  | "obs sp" => some "Obsolete spelling of \x7bterm\x7d"
  | "obs sp of" => some "Obsolete spelling of \x7bterm\x7d"
  | "stand sp" => some "Standard spelling of \x7bterm\x7d"
  | "standard sp" => some "Standard spelling of \x7bterm\x7d"
  | "pron sp" => some "Pronunciation spelling of \x7bterm\x7d"
  | "ellipsis of" => some "Ellipsis of \x7bterm\x7d"
  | "only used in" => some "Only used in \x7bterm\x7d"
  | "short for" => some "Short for \x7bterm\x7d"
  | "form of" => some "Form of \x7bterm\x7d"
  | "inflection of" => some "Inflection of \x7bterm\x7d"
  | "infl of" => some "Inflection of \x7bterm\x7d"
  | _ => none

/-- Replace every occurrence of `pat` in the last argument by `repl`
(left to right, non-overlapping); fuel-driven recursion. -/
def replace_seq_go : Nat → List Char → List Char → List Char → List Char
  | 0, _, _, cs => cs
  | _ + 1, _, _, [] => []
  | fuel + 1, pat, repl, c :: rest =>
    if pat ≠ [] ∧ pat.isPrefixOf (c :: rest) then
      repl ++ replace_seq_go fuel pat repl ((c :: rest).drop pat.length)
    else c :: replace_seq_go fuel pat repl rest

/-- Substring replacement entry point. -/
def replace_seq (pat repl cs : List Char) : List Char :=
  replace_seq_go (cs.length + 1) pat repl cs

/-- Python `tmpl.format(term=...)` for the definition-template strings. -/
def format_term (tmpl : String) (term : List Char) : List Char :=
  replace_seq "\x7bterm\x7d".toList term tmpl.toList

/-- Python `str.title()` (ASCII): upper-case each letter that follows a
non-letter, lower-case the rest. -/
def py_title_go : Bool → List Char → List Char
  | _, [] => []
  | prev, c :: rest =>
    if c.isAlpha then (if prev then c.toLower else c.toUpper) :: py_title_go true rest
    else c :: py_title_go false rest

/-- Python `str.title()`. -/
def py_title (cs : List Char) : List Char := py_title_go false cs

/-- `LABEL_TEMPLATES` (line 20). -/
def label_templates : List (List Char) :=
  ["lb", "lbl", "label", "labels", "tag", "tags"].map String.toList

/-- `LINK_TEMPLATES` (line 21). -/
def link_templates : List (List Char) :=
  ["l", "link", "m", "mention", "w", "wp", "wikipedia"].map String.toList

/-- `LANGUAGE_TEMPLATES` (line 22). -/
def language_templates : List (List Char) := ["lang".toList]

/-- `QUALIFIER_TEMPLATES` (line 106). -/
def qualifier_templates : List (List Char) :=
  ["q", "qual", "qualifier"].map String.toList

/-- `USAGE_TEMPLATES` (line 107). -/
def usage_templates : List (List Char) := ["ux", "uxi", "uxa"].map String.toList

/-- `QUOTE_TEMPLATES` (lines 108-116). -/
def quote_templates : List (List Char) :=
  ["quote-book", "quote-journal", "quote-text", "quote-web", "quote-av",
   "quote-song", "quote-hansard"].map String.toList

/-- `NON_GLOSS_TEMPLATES` (line 117). -/
def non_gloss_templates : List (List Char) :=
  ["non-gloss", "ng", "ngd"].map String.toList

/-- `EMPTY_TEMPLATES` (line 118). -/
def empty_templates : List (List Char) := ["senseid".toList, "sid".toList]

/-- `NAME_TEMPLATES` (lines 101-104) as a lookup. -/
def name_templates_get (name : List Char) : Option (List Char) :=
  if name = "surname".toList then some "Surname".toList
  else if name = "given name".toList then some "Given name".toList
  else none

/-- `PLACE_TEMPLATES` (line 105). -/
def place_templates : List (List Char) := ["place".toList]

/-- The `for param in parts[1:]` loop body of `_parse_template`
(lines 261-273): Python's `"=" in param` substring test decides named
versus positional; the value is recursively expanded then stripped and
only non-empty values are recorded. -/
def parse_param_step (expand : List Char → List Char)
    (acc : List (List Char) × List (List Char × List Char)) (param : List Char) :
    List (List Char) × List (List Char × List Char) :=
  if param = [] then acc
  else if '=' ∈ param then
    let key := param.takeWhile (· ≠ '=')
    let value0 := (param.dropWhile (· ≠ '=')).drop 1
    let key2 := lower_l (py_strip key)
    let value := py_strip (expand value0)
    if value ≠ [] then (acc.1, py_dict_set acc.2 key2 value) else acc
  else
    let value := py_strip (expand param)
    if value ≠ [] then (acc.1 ++ [value], acc.2) else acc

mutual
/-- `build_worddefs._expand_templates` (lines 452-469).  The fuel
strictly decreases on every call; the Python original terminates because
each nested call works on a strictly shorter string, so any fuel at least
quadratic in the length is never exhausted. -/
def expandF : Nat → List Char → List Char
  | 0, _ => []
  | _ + 1, [] => []
  | _ + 1, [c] => [c]
  | fuel + 1, c1 :: c2 :: rest =>
    if c1 = '{' ∧ c2 = '{' then
      match extract_template (c1 :: c2 :: rest) with
      | none => c1 :: expandF fuel (c2 :: rest)
      | some (content, rest2) => renderF fuel content ++ expandF fuel rest2
    else c1 :: expandF fuel (c2 :: rest)

/-- `build_worddefs._render_template` (lines 412-449): parse, then
dispatch on the lowercased name in source order. -/
def renderF : Nat → List Char → List Char
  | 0, _ => []
  | fuel + 1, content =>
    let tpl := parse_templateF fuel content
    let name := tpl.1
    let params := tpl.2.1
    let named := tpl.2.2
    if name = [] then []
    else if name ∈ label_templates then render_label_template params
    else if name ∈ link_templates then (match params with | p :: _ => p | [] => [])
    else if name ∈ language_templates then
      (if params ≠ [] then List.intercalate [' '] params
       else (first_truthy [named_get named "text".toList, named_get named "passage".toList]).getD [])
    else if name ∈ empty_templates then []
    else if name ∈ qualifier_templates then render_qualifier_template params
    else
      match name_templates_get name with
      | some label => render_name_template label params named
      | none =>
        if name ∈ place_templates then render_place_template params named
        else if name ∈ non_gloss_templates then (match params with | p :: _ => p | [] => [])
        else if name ∈ usage_templates then render_usage_template params named
        else if name ∈ quote_templates then render_quote_template params named
        else
          match definition_template (String.mk name) with
          | some tmpl =>
            (match params with
             | p :: restp =>
               let text := format_term tmpl p
               let extras := restp.filter (fun q => q ≠ [])
               if extras ≠ [] then
                 text ++ " (".toList ++ List.intercalate "; ".toList extras ++ [')']
               else text
             | [] => [])
          | none =>
            if " of".toList.isSuffixOf name ∧ params ≠ [] then
              py_title name ++ [' '] ++ params.headD []
            else []

/-- `build_worddefs._parse_template` (lines 254-281). -/
def parse_templateF : Nat → List Char →
    (List Char × List (List Char) × List (List Char × List Char))
  | 0, _ => ([], [], [])
  | fuel + 1, content =>
    match split_template_parts_l content with
    | [] => ([], [], [])
    | p0 :: restp =>
      let name := lower_l (py_strip p0)
      let pn := restp.foldl (parse_param_step (expandF fuel)) ([], [])
      let positional := pn.1.filter (fun p =>
        ¬ (lower_l p = "en".toList ∨ lower_l p = "eng".toList ∨ lower_l p = "english".toList))
      let positional := positional.map strip_wiki_pref
      let named := (pn.2.filter (fun kv => kv.2 ≠ [])).map
        (fun kv => (kv.1, strip_wiki_pref kv.2))
      (name, positional, named)
end

/-- `_expand_templates` on a `String`, with ample fuel. -/
def expand_templates (s : String) : String :=
  String.mk (expandF ((s.length + 1) * (s.length + 1)) s.toList)

/-- `_parse_template` on a `String`, with ample fuel. -/
def parse_template (s : String) :
    (List Char × List (List Char) × List (List Char × List Char)) :=
  parse_templateF ((s.length + 1) * (s.length + 1)) s.toList

/-- Text after the first `)` of the list, if any (`[^)]*\)` of the
label regex in `_strip_leading_labels`). -/
def after_close : List Char → Option (List Char)
  | [] => none
  | c :: rest => if c = ')' then some rest else after_close rest

/-- `build_worddefs._strip_leading_labels` (lines 499-506): repeatedly
remove a leading `\([^)]*\)\s*` group.  Fuel-driven: each removal strictly
shortens the text, so `length + 1` rounds always suffice. -/
def strip_leading_labels_go : Nat → List Char → List Char
  | 0, cs => cs
  | fuel + 1, cs =>
    match cs with
    | '(' :: rest =>
      (match after_close rest with
       | none => cs
       | some after => strip_leading_labels_go fuel (after.dropWhile py_is_space))
    | _ => cs

/-- `_strip_leading_labels`. -/
def strip_leading_labels (cs : List Char) : List Char :=
  strip_leading_labels_go (cs.length + 1) cs

/-- The lazy group `(.+?)(?:[.;]|$)` of `FORM_OF_RE`, continuation after
the first consumed character: stop before the first `.` or `;` (or at
end of text); `.` never matches a newline, so a newline before the
terminator fails the whole match.  (The glosses this regex receives come
out of `_clean_wikitext`, which collapses all whitespace to single
spaces, so the texts contain no newline and `$`'s before-trailing-newline
behaviour never arises.) -/
def grp2_go : List Char → List Char → Option (List Char)
  | acc, [] => some acc
  | acc, c :: rest =>
    if c = '.' ∨ c = ';' then some acc
    else if c = '\n' then none
    else grp2_go (acc ++ [c]) rest

/-- The lazy group `(.+?)(?:[.;]|$)`: at least one character. -/
def grp2 : List Char → Option (List Char)
  | [] => none
  | c :: rest => if c = '\n' then none else grp2_go [c] rest

/-- The alternation of `FORM_OF_RE` (lines 52-55), in source order. -/
def form_of_alts : List (List Char) :=
  ["plural".toList, "present participle".toList, "gerund".toList,
   "inflection".toList, "infl".toList]

/-- One alternative of `FORM_OF_RE` matched at the start of the text:
the phrase, a literal ` of `, then the lazy lemma group.  Returns
`(group(1).lower(), group(2))`. -/
def form_of_try (alt : List Char) (cs : List Char) : Option (List Char × List Char) :=
  if starts_with_ci (alt ++ " of ".toList) cs then
    (grp2 (cs.drop (alt.length + 4))).map (fun g => (alt, g))
  else none

/-- `FORM_OF_RE.match` (case-insensitive, anchored at the start). -/
def form_of_match (cs : List Char) : Option (List Char × List Char) :=
  form_of_alts.findSome? (fun alt => form_of_try alt cs)

/-- The prefix before the first of `(`, `,`, `;`
(`re.split(r"\s*(?:\(|,|;)", lemma, 1)[0]` up to the trailing whitespace
absorbed by `\s*`, which the subsequent `.strip()` removes anyway). -/
def take_until_delim : List Char → List Char
  | [] => []
  | c :: rest =>
    if c = '(' ∨ c = ',' ∨ c = ';' then [] else c :: take_until_delim rest

/-- `build_worddefs._extract_form_of_base` (lines 509-524): strip leading
labels, match `FORM_OF_RE`, trim the lemma, and resolve the generic
`inflection`/`infl` phrasing through the source word's own `-ing` suffix. -/
def extract_form_of_base (word : List Char) (text : List Char) :
    Option (List Char × List Char) :=
  let stripped := strip_leading_labels text
  match form_of_match stripped with
  | none => none
  | some (form_type, g2) =>
    let lemma0 := py_strip g2
    let lemma1 := py_strip (take_until_delim lemma0)
    let lemma2 := py_strip_chars [' ', '.'] lemma1
    if lemma2 = [] then none
    else if form_type = "inflection".toList ∨ form_type = "infl".toList then
      if ¬ ("ing".toList.isSuffixOf word) then none
      else some ("present participle".toList, lower_l lemma2)
    else some (form_type, lower_l lemma2)

/-- `_extract_form_of_base` packaged for `String`. -/
def extract_form_of_base_s (word text : String) : Option (String × String) :=
  (extract_form_of_base word.toList text.toList).map
    (fun p => (String.mk p.1, String.mk p.2))

/-- One `(language, pos, cleaned text)` triple, the element type of
`extract_definitions`' result. -/
abbrev Defn := String × String × String

/-- One `<page>` record of the streamed dump.  `title`/`text` are `none`
when the corresponding element is absent; `text = some none` is a present
`<text>` element whose content is empty (`text_elem.text` is `None`). -/
structure Page where
  title : Option String
  text : Option (Option String)
deriving DecidableEq

/-- The mutable state of one `parse_definitions` run: the local `targets`
copy (`targets = set(target_words)`, line 586), the `seen` set, and the
caller-supplied accumulators.  `extra_enabled` models
`extra_targets is not None` (line 616). -/
structure PDState where
  targets : List String
  seen : List String
  definitions : List (String × List Defn)
  form_of_map : List (String × List String)
  extra_targets : List String
  extra_enabled : Bool
deriving DecidableEq

/-- Python `set.add` on a membership-list. -/
def insert_new (l : List String) (x : String) : List String :=
  if x ∈ l then l else l ++ [x]

/-- Lines 609-615: merge a page's definitions into the accumulator,
appending only entries not already present. -/
def merge_defs (defs : List (String × List Defn)) (key : String)
    (page_defs : List Defn) : List (String × List Defn) :=
  match defs.lookup key with
  | some existing =>
    if existing ≠ [] then
      py_dict_set defs key
        (page_defs.foldl (fun acc d => if d ∈ acc then acc else acc ++ [d]) existing)
    else py_dict_set defs key page_defs
  | none => py_dict_set defs key page_defs

/-- `form_of_map.setdefault(key, set()).add(base)` (line 622). -/
def py_set_add_map (d : List (String × List String)) (k : String) (b : String) :
    List (String × List String) :=
  match d.lookup k with
  | some s => py_dict_set d k (insert_new s b)
  | none => d ++ [(k, [b])]

/-- Lines 617-625, one definition: extract a form-of base from the gloss,
record the edge, and grow the frontier when the base is a new target. -/
def record_form_of (st : PDState) (key : String) (def_text : String) : PDState :=
  match extract_form_of_base_s key def_text with
  | none => st
  | some (_, base) =>
    let st1 := { st with form_of_map := py_set_add_map st.form_of_map key base }
    if base ∉ st1.targets then
      { st1 with extra_targets := insert_new st1.extra_targets base,
                 targets := insert_new st1.targets base }
    else st1

/-- The per-page body of `parse_definitions` (lines 592-627).  A missing
`<title>` (or one with empty text) skips the page; a missing `<text>`
element is `text_elem.text` on `None` — an `AttributeError`, modelled as
`Except.error`. -/
def process_page (extract_defs : String → List Defn) (st : PDState) (page : Page) :
    Except String PDState :=
  match page.title with
  | none => .ok st
  | some raw_title =>
    if raw_title = "" then .ok st
    else
      let key := py_lower_s (py_strip_s raw_title)
      if key ∉ st.targets then .ok st
      else
        let st := { st with seen := insert_new st.seen key }
        match page.text with
        | none => .error "AttributeError"
        | some content =>
          let page_defs := extract_defs (content.getD "")
          if page_defs = [] then .ok st
          else
            let st := { st with definitions := merge_defs st.definitions key page_defs }
            if st.extra_enabled then
              .ok (page_defs.foldl (fun s d => record_form_of s key d.2.2) st)
            else .ok st

/-- The `for event, elem in context` streaming loop: an exception on any
page aborts the run. -/
def run_pages (extract_defs : String → List Defn) :
    List Page → PDState → Except String PDState
  | [], st => .ok st
  | p :: ps, st =>
    match process_page extract_defs st p with
    | .error e => .error e
    | .ok st2 => run_pages extract_defs ps st2

/-- What one `parse_definitions` call communicates back to its caller:
the returned `(definitions, seen)` pair together with the in-place
mutated `form_of_map` and `extra_targets` arguments.  The local
`targets` copy is deliberately not part of it. -/
structure PDResult where
  definitions : List (String × List Defn)
  seen : List String
  form_of_map : List (String × List String)
  extra_targets : List String
deriving DecidableEq

/-- `build_worddefs.parse_definitions` (lines 574-628), parameterised over
`extract_definitions` (the heading walker the claims do not depend on).
The target words are copied into a local set before scanning. -/
def parse_definitions (extract_defs : String → List Defn) (pages : List Page)
    (target_words : List String) (definitions0 : List (String × List Defn))
    (form_of_map0 : List (String × List String)) (extra_enabled : Bool)
    (extra0 : List String) : Except String PDResult :=
  let st0 : PDState :=
    { targets := target_words.dedup, seen := [], definitions := definitions0,
      form_of_map := form_of_map0, extra_targets := extra0, extra_enabled := extra_enabled }
  match run_pages extract_defs pages st0 with
  | .error e => .error e
  | .ok st => .ok ⟨st.definitions, st.seen, st.form_of_map, st.extra_targets⟩

instance {ε α : Type _} [DecidableEq ε] [DecidableEq α] : DecidableEq (Except ε α) :=
  fun a b =>
    match a, b with
    | .ok x, .ok y =>
      if h : x = y then isTrue (congrArg Except.ok h)
      else isFalse (fun hc => h (Except.ok.inj hc))
    | .error x, .error y =>
      if h : x = y then isTrue (congrArg Except.error h)
      else isFalse (fun hc => h (Except.error.inj hc))
    | .ok _, .error _ => isFalse (fun hc => Except.noConfusion hc)
    | .error _, .ok _ => isFalse (fun hc => Except.noConfusion hc)

/-- Python string `<`: lexicographic comparison by code point. -/
def chars_lt : List Char → List Char → Bool
  | [], [] => false
  | [], _ :: _ => true
  | _ :: _, [] => false
  | a :: as, b :: bs =>
    if a.toNat < b.toNat then true
    else if b.toNat < a.toNat then false
    else chars_lt as bs

/-- Python string `<` on `String`. -/
def py_str_lt (a b : String) : Bool := chars_lt a.toList b.toList

/-- `sorted(xs)[0]`: the least string of a non-empty collection
(lexicographic code-point order, as in Python). -/
def sorted_head (l : List String) : String :=
  match l with
  | [] => ""
  | x :: xs => xs.foldl (fun a b => if py_str_lt b a then b else a) x

/-- One iteration of the output loop of `main` (lines 688-699).  `base`
stays empty (Python `None`/`""`, both falsy) unless the word has a
non-empty `form_of_map` entry; a redirected word is never emitted
itself. -/
def compose_step (fom : List (String × List String))
    (acc : List String × List String) (word : String) : List String × List String :=
  let bases := (fom.lookup word).getD []
  let base := if bases ≠ [] then sorted_head bases else ""
  if base ≠ "" then
    (if base ∈ acc.2 then acc else (acc.1 ++ [base], acc.2 ++ [base]))
  else
    (if word ∈ acc.2 then acc else (acc.1 ++ [word], acc.2 ++ [word]))

/-- The output-word loop of `main` (lines 686-699): `output_words` with
its `output_seen` dedup set. -/
def compose_output (words : List String) (fom : List (String × List String)) : List String :=
  (words.foldl (compose_step fom) ([], [])).1

/-- Modelled from the spec (§4.8 / claim C3 wording), for comparison with
`compose_output`: redirect to the lexicographically smallest lemma, skip
the inflected word *unless* it also has definitions of its own, in which
case both are emitted, lemma first.  `has_own_defs` abstracts "has its own
definitions". -/
def compose_claimed_step (fom : List (String × List String)) (has_own_defs : String → Bool)
    (acc : List String × List String) (word : String) : List String × List String :=
  let bases := (fom.lookup word).getD []
  if bases ≠ [] then
    let base := sorted_head bases
    let acc1 := if base ∈ acc.2 then acc else (acc.1 ++ [base], acc.2 ++ [base])
    if has_own_defs word then
      (if word ∈ acc1.2 then acc1 else (acc1.1 ++ [word], acc1.2 ++ [word]))
    else acc1
  else (if word ∈ acc.2 then acc else (acc.1 ++ [word], acc.2 ++ [word]))

/-- Modelled from the spec: the OutputComposer as claim C3 describes it. -/
def compose_output_claimed (words : List String) (fom : List (String × List String))
    (has_own_defs : String → Bool) : List String :=
  (words.foldl (compose_claimed_step fom has_own_defs) ([], [])).1

/-- What `main` reports (lines 701-708): the composed output words, the
`missing` set, and `found = len(definitions)`. -/
structure MainResult where
  output_words : List String
  missing : List String
  found : Nat
  definitions : List (String × List Defn)
deriving DecidableEq

/-- Python set union `a | b` on membership-lists. -/
def list_union (a b : List String) : List String := a ++ b.filter (fun x => x ∉ a)

/-- The tail of `main` (lines 686-708): compose the output words and the
diagnostics from the final accumulators. -/
def main_finish (words targets extra1 seen : List String)
    (fom : List (String × List String)) (defs : List (String × List Defn)) : MainResult :=
  ⟨compose_output words fom,
   (list_union targets extra1).filter (fun w => w ∉ seen),
   defs.length, defs⟩

/-- `build_worddefs.main` (lines 651-709) after argument/file handling:
pass 1 with frontier tracking, then at most one more pass restricted to
the unresolved extra targets and run with `extra_targets=None`. -/
def main_run (extract_defs : String → List Defn) (pages : List Page)
    (words : List String) : Except String MainResult :=
  let targets := words.dedup
  match parse_definitions extract_defs pages targets [] [] true [] with
  | .error e => .error e
  | .ok st1 =>
    if st1.extra_targets ≠ [] then
      let missing_extra := st1.extra_targets.filter (fun w => w ∉ st1.seen)
      if missing_extra ≠ [] then
        match parse_definitions extract_defs pages missing_extra st1.definitions
            st1.form_of_map false [] with
        | .error e => .error e
        | .ok st2 =>
          .ok (main_finish words targets st1.extra_targets
            (list_union st1.seen st2.seen) st2.form_of_map st2.definitions)
      else
        .ok (main_finish words targets st1.extra_targets st1.seen
          st1.form_of_map st1.definitions)
    else
      .ok (main_finish words targets st1.extra_targets st1.seen
        st1.form_of_map st1.definitions)

/-- A minimal concrete stand-in for `extract_definitions`, used only to
instantiate the parameterised pipeline in closed theorems: a non-empty
page body becomes a single English noun gloss. -/
def ed_toy : String → List Defn :=
  fun text => if text = "" then [] else [("english", "noun", text)]

/-! ### Lemmas about the bracket scanner -/

/-- The text contains an occurrence of `{{`. -/
def has_open : List Char → Bool
  | c1 :: c2 :: rest => (c1 == '{' && c2 == '{') || has_open (c2 :: rest)
  | _ => false

/-- The text contains an occurrence of `}}`. -/
def has_close : List Char → Bool
  | c1 :: c2 :: rest => (c1 == '}' && c2 == '}') || has_close (c2 :: rest)
  | _ => false

theorem has_open_tail {c : Char} {rest : List Char}
    (h : has_open (c :: rest) = false) : has_open rest = false := by
  cases rest with
  | nil => rfl
  | cons c2 r2 => simp [has_open] at h ⊢; exact h.2

theorem has_close_tail {c : Char} {rest : List Char}
    (h : has_close (c :: rest) = false) : has_close rest = false := by
  cases rest with
  | nil => rfl
  | cons c2 r2 => simp [has_close] at h ⊢; exact h.2

theorem has_close_head {c1 c2 : Char} {rest : List Char}
    (h : has_close (c1 :: c2 :: rest) = false) : ¬ (c1 = '}' ∧ c2 = '}') := by
  simp [has_close] at h
  intro hc
  exact absurd (h.1 hc.1) (by simp [hc.2])

theorem has_open_head {c1 c2 : Char} {rest : List Char}
    (h : has_open (c1 :: c2 :: rest) = false) : ¬ (c1 = '{' ∧ c2 = '{') := by
  simp [has_open] at h
  intro hc
  exact absurd (h.1 hc.1) (by simp [hc.2])

/-- The scan of `_extract_template` only ever splits its input: on success
the consumed span concatenated with the returned remainder is the original
text, so the scan is bounded by the input length. -/
theorem extract_loop_append :
    ∀ (cs : List Char) (d : Nat) (p : List Char × List Char),
      extract_loop cs d = some p → p.1 ++ p.2 = cs := by
  have H : ∀ (n : Nat) (cs : List Char), cs.length ≤ n → ∀ (d : Nat) p,
      extract_loop cs d = some p → p.1 ++ p.2 = cs := by
    intro n
    induction n with
    | zero =>
      intro cs hlen d p h
      have : cs = [] := List.eq_nil_of_length_eq_zero (Nat.le_zero.mp hlen)
      subst this
      simp [extract_loop] at h
    | succ n ih =>
      intro cs hlen d p h
      match cs with
      | [] => simp [extract_loop] at h
      | [c] => simp [extract_loop] at h
      | c1 :: c2 :: rest =>
        simp only [extract_loop] at h
        split_ifs at h with h1 h2 h3
        · obtain ⟨q, hq, hpq⟩ := Option.map_eq_some'.mp h
          have := ih rest (by simp at hlen; omega) _ _ hq
          subst hpq
          simp [← this]
        · obtain rfl := Option.some.inj h
          rfl
        · obtain ⟨q, hq, hpq⟩ := Option.map_eq_some'.mp h
          have := ih rest (by simp at hlen; omega) _ _ hq
          subst hpq
          simp [← this]
        · obtain ⟨q, hq, hpq⟩ := Option.map_eq_some'.mp h
          have := ih (c2 :: rest) (by simp at hlen ⊢; omega) _ _ hq
          subst hpq
          simp [← this]
  exact fun cs d p h => H cs.length cs le_rfl d p h

/-- Without a `}}` in the text, the `_extract_template` scan reports
failure (Python's `(None, None)`) at every depth — it never fabricates a
span and never diverges. -/
theorem extract_loop_noclose :
    ∀ (cs : List Char), has_close cs = false → ∀ d, extract_loop cs d = none := by
  have H : ∀ (n : Nat) (cs : List Char), cs.length ≤ n → has_close cs = false →
      ∀ d, extract_loop cs d = none := by
    intro n
    induction n with
    | zero =>
      intro cs hlen _ d
      have : cs = [] := List.eq_nil_of_length_eq_zero (Nat.le_zero.mp hlen)
      subst this
      simp [extract_loop]
    | succ n ih =>
      intro cs hlen hnc d
      match cs with
      | [] => simp [extract_loop]
      | [c] => simp [extract_loop]
      | c1 :: c2 :: rest =>
        simp only [extract_loop]
        split_ifs with h1 h2 h3
        · rw [ih rest (by simp at hlen; omega)
            (has_close_tail (has_close_tail hnc)) (d + 1)]
          rfl
        · exact absurd ⟨h2.1, h2.2.1⟩ (has_close_head hnc)
        · exact absurd ⟨h2.1, h2.2.1⟩ (has_close_head hnc)
        · rw [ih (c2 :: rest) (by simp at hlen ⊢; omega) (has_close_tail hnc) d]
          rfl
  exact fun cs h d => H cs.length cs le_rfl h d

/-- `_extract_template` on close-brace-free text: failure, never a throw. -/
theorem extract_template_noclose {cs : List Char} (h : has_close cs = false) :
    extract_template cs = none := by
  unfold extract_template
  rw [extract_loop_noclose cs h 0]

/-- `_expand_templates` on close-brace-free text is the identity: an
unterminated `{{` opener is emitted as literal text, character by
character. -/
theorem expandF_noclose_id :
    ∀ (f : Nat) (cs : List Char), cs.length ≤ f → has_close cs = false →
      expandF f cs = cs := by
  intro f
  induction f with
  | zero =>
    intro cs hlen _
    have : cs = [] := List.eq_nil_of_length_eq_zero (Nat.le_zero.mp hlen)
    subst this
    rfl
  | succ f ih =>
    intro cs hlen hnc
    match cs with
    | [] => rfl
    | [c] => rfl
    | c1 :: c2 :: rest =>
      simp only [expandF]
      split_ifs with h1
      · rw [extract_template_noclose hnc]
        rw [ih (c2 :: rest) (by simp at hlen ⊢; omega) (has_close_tail hnc)]
      · rw [ih (c2 :: rest) (by simp at hlen ⊢; omega) (has_close_tail hnc)]

/-- `_expand_templates` on text with no `{{` occurrence is the identity. -/
theorem expandF_noopen_id :
    ∀ (f : Nat) (cs : List Char), cs.length ≤ f → has_open cs = false →
      expandF f cs = cs := by
  intro f
  induction f with
  | zero =>
    intro cs hlen _
    have : cs = [] := List.eq_nil_of_length_eq_zero (Nat.le_zero.mp hlen)
    subst this
    rfl
  | succ f ih =>
    intro cs hlen hno
    match cs with
    | [] => rfl
    | [c] => rfl
    | c1 :: c2 :: rest =>
      simp only [expandF]
      split_ifs with h1
      · exact absurd h1 (has_open_head hno)
      · rw [ih (c2 :: rest) (by simp at hlen ⊢; omega) (has_open_tail hno)]

/-- Inside an open template (`depth > 0`), `_strip_templates` emits
nothing when no `}}` ever closes the span. -/
theorem strip_loop_pos_empty :
    ∀ (cs : List Char), has_close cs = false → ∀ d, 0 < d → strip_loop cs d = [] := by
  have H : ∀ (n : Nat) (cs : List Char), cs.length ≤ n → has_close cs = false →
      ∀ d, 0 < d → strip_loop cs d = [] := by
    intro n
    induction n with
    | zero =>
      intro cs hlen _ d _
      have : cs = [] := List.eq_nil_of_length_eq_zero (Nat.le_zero.mp hlen)
      subst this
      rfl
    | succ n ih =>
      intro cs hlen hnc d hd
      match cs with
      | [] => rfl
      | [c] => simp [strip_loop]; omega
      | c1 :: c2 :: rest =>
        simp only [strip_loop]
        split_ifs with h1 h2 h3
        · exact ih rest (by simp at hlen; omega)
            (has_close_tail (has_close_tail hnc)) (d + 1) (Nat.succ_pos d)
        · exact absurd ⟨h2.2.1, h2.2.2⟩ (has_close_head hnc)
        · exact absurd h3 (by omega)
        · simp only [List.nil_append]
          exact ih (c2 :: rest) (by simp at hlen ⊢; omega) (has_close_tail hnc) d hd
  exact fun cs h d hd => H cs.length cs le_rfl h d hd

/-- Helper: the quadratic fuel of the wrappers dominates the length. -/
theorem len_le_fuel (n : Nat) : n ≤ (n + 1) * (n + 1) := by nlinarith

/-! ### Lemmas about the accumulator updates of `parse_definitions` -/

theorem lookup_map_update {β : Type} (tl : List (String × β)) (k : String) (v : β) :
    ∀ k', k' ≠ k →
      List.lookup k' (tl.map (fun kv => if kv.1 = k then (k, v) else kv)) =
        List.lookup k' tl := by
  induction tl with
  | nil => intro k' _; rfl
  | cons kv tl ih =>
    intro k' hk
    by_cases hh : kv.1 = k
    · have h1 : (k' == k) = false := beq_eq_false_iff_ne.mpr hk
      have h2 : (k' == kv.1) = false := beq_eq_false_iff_ne.mpr (hh ▸ hk)
      simp only [List.map_cons, if_pos hh]
      rw [List.lookup_cons, List.lookup_cons]
      simp only [h1, h2]
      exact ih k' hk
    · simp only [List.map_cons, if_neg hh]
      rw [List.lookup_cons, List.lookup_cons]
      cases hkv : (k' == kv.1) with
      | true => rfl
      | false => exact ih k' hk

theorem lookup_py_dict_set_self {β : Type} (d : List (String × β)) (k : String) (v : β) :
    (py_dict_set d k v).lookup k = some v := by
  unfold py_dict_set
  split_ifs with h
  · induction d with
    | nil => simp at h
    | cons kv tl ih =>
      by_cases hk : kv.1 = k
      · simp only [List.map_cons, if_pos hk]
        exact List.lookup_cons_self
      · have hne : (k == kv.1) = false := beq_eq_false_iff_ne.mpr (Ne.symm hk)
        simp only [List.map_cons, if_neg hk]
        rw [List.lookup_cons]
        simp only [hne]
        refine ih ?_
        rw [List.lookup_cons] at h
        simpa only [hne] using h
  · have hd : d.lookup k = none := Option.not_isSome_iff_eq_none.mp h
    rw [List.lookup_append, hd, Option.none_or]
    exact List.lookup_cons_self

theorem lookup_py_dict_set_other {β : Type} (d : List (String × β)) (k k' : String) (v : β)
    (hk : k' ≠ k) : (py_dict_set d k v).lookup k' = d.lookup k' := by
  unfold py_dict_set
  have hne : (k' == k) = false := beq_eq_false_iff_ne.mpr hk
  split_ifs with h
  · exact lookup_map_update d k v k' hk
  · rw [List.lookup_append]
    have : List.lookup k' [(k, v)] = none := by
      rw [List.lookup_cons]
      simp only [hne]
      rfl
    rw [this, Option.or_none]

theorem mem_insert_new_self (l : List String) (x : String) : x ∈ insert_new l x := by
  unfold insert_new
  split_ifs with h
  · exact h
  · simp

theorem mem_insert_new_of_mem {l : List String} {y : String} (x : String) (h : y ∈ l) :
    y ∈ insert_new l x := by
  unfold insert_new
  split_ifs
  · exact h
  · simp [h]

/-- The inner `for definition in definitions_for_page` append loop only
extends the existing list. -/
theorem foldl_dedup_append_prefix (pds : List Defn) :
    ∀ acc : List Defn,
      acc <+: pds.foldl (fun acc d => if d ∈ acc then acc else acc ++ [d]) acc := by
  induction pds with
  | nil => intro acc; exact List.prefix_refl _
  | cons d tl ih =>
    intro acc
    simp only [List.foldl_cons]
    by_cases h : d ∈ acc
    · simpa [h] using ih acc
    · exact List.IsPrefix.trans (List.prefix_append acc [d]) (by simpa [h] using ih (acc ++ [d]))

/-- `merge_defs` only appends to the entry of any key already present. -/
theorem merge_defs_lookup_grows (defs : List (String × List Defn)) (key : String)
    (pds : List Defn) (k : String) (v : List Defn) (h : defs.lookup k = some v) :
    ∃ v2, (merge_defs defs key pds).lookup k = some v2 ∧ v <+: v2 := by
  unfold merge_defs
  by_cases hk : k = key
  · subst hk
    simp only [h]
    split_ifs with hv
    · exact ⟨_, lookup_py_dict_set_self _ _ _, foldl_dedup_append_prefix pds v⟩
    · have hv' : v = [] := by simpa using hv
      subst hv'
      exact ⟨pds, lookup_py_dict_set_self _ _ _, List.nil_prefix⟩
  · cases hd : defs.lookup key with
    | some w =>
      simp only [hd]
      split_ifs with hw
      · exact ⟨v, by rw [lookup_py_dict_set_other _ _ _ _ hk]; exact h, List.prefix_refl v⟩
      · exact ⟨v, by rw [lookup_py_dict_set_other _ _ _ _ hk]; exact h, List.prefix_refl v⟩
    | none =>
      simp only [hd]
      exact ⟨v, by rw [lookup_py_dict_set_other _ _ _ _ hk]; exact h, List.prefix_refl v⟩

/-- `py_set_add_map` only grows the set stored under any key. -/
theorem py_set_add_map_grows (d : List (String × List String)) (kk b : String)
    (k : String) (s : List String) (h : d.lookup k = some s) :
    ∃ s2, (py_set_add_map d kk b).lookup k = some s2 ∧ ∀ y ∈ s, y ∈ s2 := by
  unfold py_set_add_map
  by_cases hk : k = kk
  · subst hk
    simp only [h]
    exact ⟨insert_new s b, lookup_py_dict_set_self _ _ _,
      fun y hy => mem_insert_new_of_mem b hy⟩
  · cases hd : d.lookup kk with
    | some w =>
      simp only [hd]
      exact ⟨s, by rw [lookup_py_dict_set_other _ _ _ _ hk]; exact h, fun y hy => hy⟩
    | none =>
      simp only [hd]
      refine ⟨s, ?_, fun y hy => hy⟩
      rw [List.lookup_append, h]
      rfl

/-- The growth relation every page step preserves: definitions are
append-only per key, the form-of map and the frontier only grow, and the
tracking flag is untouched. -/
def pd_grows (a b : PDState) : Prop :=
  (∀ k v, a.definitions.lookup k = some v →
    ∃ v2, b.definitions.lookup k = some v2 ∧ v <+: v2) ∧
  (∀ x, x ∈ a.extra_targets → x ∈ b.extra_targets) ∧
  (∀ k s, a.form_of_map.lookup k = some s →
    ∃ s2, b.form_of_map.lookup k = some s2 ∧ ∀ y ∈ s, y ∈ s2) ∧
  (∀ x, x ∈ a.targets → x ∈ b.targets) ∧
  a.extra_enabled = b.extra_enabled

theorem pd_grows_refl (a : PDState) : pd_grows a a :=
  ⟨fun _ v h => ⟨v, h, List.prefix_refl v⟩, fun _ h => h,
   fun _ s h => ⟨s, h, fun _ hy => hy⟩, fun _ h => h, rfl⟩

theorem pd_grows_trans {a b c : PDState} (h1 : pd_grows a b) (h2 : pd_grows b c) :
    pd_grows a c := by
  obtain ⟨d1, e1, f1, t1, g1⟩ := h1
  obtain ⟨d2, e2, f2, t2, g2⟩ := h2
  refine ⟨fun k v h => ?_, fun x h => e2 x (e1 x h), fun k s h => ?_,
    fun x h => t2 x (t1 x h), g1.trans g2⟩
  · obtain ⟨v2, hv2, hp⟩ := d1 k v h
    obtain ⟨v3, hv3, hp2⟩ := d2 k v2 hv2
    exact ⟨v3, hv3, hp.trans hp2⟩
  · obtain ⟨s2, hs2, hm⟩ := f1 k s h
    obtain ⟨s3, hs3, hm2⟩ := f2 k s2 hs2
    exact ⟨s3, hs3, fun y hy => hm2 y (hm y hy)⟩

theorem record_form_of_grows (st : PDState) (key def_text : String) :
    pd_grows st (record_form_of st key def_text) := by
  unfold record_form_of
  cases hx : extract_form_of_base_s key def_text with
  | none => exact pd_grows_refl st
  | some p =>
    obtain ⟨ft, base⟩ := p
    dsimp only
    by_cases h : base ∉ st.targets
    · rw [if_pos h]
      exact ⟨fun k v h => ⟨v, h, List.prefix_refl v⟩,
        fun x hx => mem_insert_new_of_mem _ hx,
        fun k s hs => py_set_add_map_grows _ _ _ _ _ hs,
        fun x hx => mem_insert_new_of_mem _ hx, rfl⟩
    · rw [if_neg h]
      exact ⟨fun k v h => ⟨v, h, List.prefix_refl v⟩, fun x hx => hx,
        fun k s hs => py_set_add_map_grows _ _ _ _ _ hs, fun x hx => hx, rfl⟩

theorem foldl_record_grows (key : String) (pds : List Defn) :
    ∀ st : PDState, pd_grows st (pds.foldl (fun s d => record_form_of s key d.2.2) st) := by
  induction pds with
  | nil => intro st; exact pd_grows_refl st
  | cons d tl ih =>
    intro st
    simp only [List.foldl_cons]
    exact pd_grows_trans (record_form_of_grows st key d.2.2) (ih _)

theorem process_page_grows (ed : String → List Defn) (st : PDState) (p : Page)
    (st2 : PDState) (h : process_page ed st p = .ok st2) : pd_grows st st2 := by
  unfold process_page at h
  cases hp : p.title with
  | none => rw [hp] at h; exact (Except.ok.inj h) ▸ pd_grows_refl st
  | some raw =>
    rw [hp] at h
    dsimp only at h
    by_cases h1 : raw = ""
    · rw [if_pos h1] at h
      exact (Except.ok.inj h) ▸ pd_grows_refl st
    · rw [if_neg h1] at h
      by_cases h2 : py_lower_s (py_strip_s raw) ∉ st.targets
      · rw [if_pos h2] at h
        exact (Except.ok.inj h) ▸ pd_grows_refl st
      · rw [if_neg h2] at h
        cases ht : p.text with
        | none => rw [ht] at h; exact absurd h (by simp)
        | some content =>
          rw [ht] at h
          dsimp only at h
          have base : pd_grows st
              { st with seen := insert_new st.seen (py_lower_s (py_strip_s raw)) } :=
            ⟨fun _ v hv => ⟨v, hv, List.prefix_refl v⟩, fun _ hx => hx,
             fun _ s hs => ⟨s, hs, fun _ hy => hy⟩, fun _ hx => hx, rfl⟩
          by_cases h3 : ed (content.getD "") = []
          · rw [if_pos h3] at h
            exact (Except.ok.inj h) ▸ base
          · rw [if_neg h3] at h
            have merged : pd_grows
                { st with seen := insert_new st.seen (py_lower_s (py_strip_s raw)) }
                { st with
                  seen := insert_new st.seen (py_lower_s (py_strip_s raw))
                  definitions := merge_defs st.definitions (py_lower_s (py_strip_s raw))
                    (ed (content.getD "")) } :=
              ⟨fun k v hv => merge_defs_lookup_grows _ _ _ k v hv, fun _ hx => hx,
               fun _ s hs => ⟨s, hs, fun _ hy => hy⟩, fun _ hx => hx, rfl⟩
            by_cases h4 : st.extra_enabled = true
            · rw [if_pos h4] at h
              replace h := Except.ok.inj h
              subst h
              exact pd_grows_trans base (pd_grows_trans merged (foldl_record_grows _ _ _))
            · rw [if_neg h4] at h
              replace h := Except.ok.inj h
              subst h
              exact pd_grows_trans base merged

theorem run_pages_grows (ed : String → List Defn) :
    ∀ (pages : List Page) (st st2 : PDState),
      run_pages ed pages st = .ok st2 → pd_grows st st2 := by
  intro pages
  induction pages with
  | nil => intro st st2 h; exact (Except.ok.inj h) ▸ pd_grows_refl st
  | cons p ps ih =>
    intro st st2 h
    unfold run_pages at h
    cases hp : process_page ed st p with
    | error e => rw [hp] at h; exact absurd h (by simp)
    | ok stm =>
      rw [hp] at h
      dsimp only at h
      exact pd_grows_trans (process_page_grows ed st p stm hp) (ih stm st2 h)

/-- With frontier tracking disabled (`extra_targets is None`), a page step
never touches `form_of_map`, `extra_targets` or the local `targets`. -/
theorem process_page_fixed (ed : String → List Defn) (st : PDState) (p : Page)
    (st2 : PDState) (h : process_page ed st p = .ok st2)
    (hen : st.extra_enabled = false) :
    st2.form_of_map = st.form_of_map ∧ st2.extra_targets = st.extra_targets ∧
      st2.targets = st.targets ∧ st2.extra_enabled = false := by
  unfold process_page at h
  cases hp : p.title with
  | none => rw [hp] at h; exact (Except.ok.inj h) ▸ ⟨rfl, rfl, rfl, hen⟩
  | some raw =>
    rw [hp] at h
    dsimp only at h
    by_cases h1 : raw = ""
    · rw [if_pos h1] at h
      exact (Except.ok.inj h) ▸ ⟨rfl, rfl, rfl, hen⟩
    · rw [if_neg h1] at h
      by_cases h2 : py_lower_s (py_strip_s raw) ∉ st.targets
      · rw [if_pos h2] at h
        exact (Except.ok.inj h) ▸ ⟨rfl, rfl, rfl, hen⟩
      · rw [if_neg h2] at h
        cases ht : p.text with
        | none => rw [ht] at h; exact absurd h (by simp)
        | some content =>
          rw [ht] at h
          dsimp only at h
          by_cases h3 : ed (content.getD "") = []
          · rw [if_pos h3] at h
            exact (Except.ok.inj h) ▸ ⟨rfl, rfl, rfl, hen⟩
          · rw [if_neg h3] at h
            rw [if_neg (by simp [hen] : ¬ st.extra_enabled = true)] at h
            exact (Except.ok.inj h) ▸ ⟨rfl, rfl, rfl, hen⟩

theorem run_pages_fixed (ed : String → List Defn) :
    ∀ (pages : List Page) (st st2 : PDState),
      run_pages ed pages st = .ok st2 → st.extra_enabled = false →
        st2.form_of_map = st.form_of_map ∧ st2.extra_targets = st.extra_targets ∧
          st2.extra_enabled = false := by
  intro pages
  induction pages with
  | nil =>
    intro st st2 h hen
    exact (Except.ok.inj h) ▸ ⟨rfl, rfl, hen⟩
  | cons p ps ih =>
    intro st st2 h hen
    unfold run_pages at h
    cases hp : process_page ed st p with
    | error e => rw [hp] at h; exact absurd h (by simp)
    | ok stm =>
      rw [hp] at h
      dsimp only at h
      obtain ⟨hf, he, _, hen2⟩ := process_page_fixed ed st p stm hp hen
      obtain ⟨hf2, he2, hen3⟩ := ih stm st2 h hen2
      exact ⟨hf2.trans hf, he2.trans he, hen3⟩

theorem list_union_mem {x : String} {a b : List String} (h : x ∈ list_union a b) :
    x ∈ a ∨ x ∈ b := by
  unfold list_union at h
  rcases List.mem_append.mp h with h | h
  · exact Or.inl h
  · exact Or.inr (List.mem_filter.mp h).1

theorem mem_main_finish_missing {words targets extra1 seen : List String}
    {fom : List (String × List String)} {defs : List (String × List Defn)} {w : String}
    (hw : w ∈ (main_finish words targets extra1 seen fom defs).missing) :
    w ∈ targets ∨ w ∈ extra1 := by
  unfold main_finish at hw
  dsimp only at hw
  exact list_union_mem (List.mem_filter.mp hw).1

/-- A single redirected word: the output is exactly the least lemma. -/
theorem compose_single (w : String) (bs : List String) (h1 : bs ≠ [])
    (h2 : sorted_head bs ≠ "") :
    compose_output [w] [(w, bs)] = [sorted_head bs] := by
  unfold compose_output compose_step
  simp only [List.foldl_cons, List.foldl_nil, List.lookup_cons_self, Option.getD_some]
  simp [h1, h2]

/-! ### The claims -/

/-- Claim C1, counterexample.  The claim asserts that word `jumped` with the
gloss `Past tense of jump.` is linked to `jump`; in fact `FORM_OF_RE` has no
`past tense` alternative, so no relation is produced — neither for `ran`
(which the claim explains by an `-ed` suffix check that does not exist) nor
for `jumped`. -/
theorem c1_counterexample :
    extract_form_of_base_s "jumped" "Past tense of jump." = none ∧
    extract_form_of_base_s "jumped" "Past tense of jump." ≠ some ("past tense", "jump") ∧
    extract_form_of_base_s "ran" "Past tense of run." = none := by
  decide

/-- Claim C1, amended: a `Past tense of …` gloss never yields a form-of
relation, for any source word and any lemma text — the phrase is not in
`FORM_OF_RE`'s alternation (`plural`, `present participle`, `gerund`,
`inflection`, `infl`), and no `-ed` suffix check exists anywhere. -/
theorem c1_amended :
    ∀ (w s : List Char), extract_form_of_base w ("Past tense of ".toList ++ s) = none :=
  fun _ _ => rfl

/-- Claim C2, counterexample.  The claim asserts that under the generic
`inflection of` phrasing a source word ending in `-ed` yields a past-tense
relation and one with trailing `-s` a third-person-singular relation; the
code returns no relation in both cases (only `-ing` is handled). -/
theorem c2_counterexample :
    extract_form_of_base_s "jumped" "inflection of jump." = none ∧
    extract_form_of_base_s "apples" "inflection of apple." = none := by
  decide

/-- Claim C2, amended: for the generic `inflection of L` phrasing the only
spelling inspected is the source word's `-ing` suffix — with it the relation
is a present participle of the lemma, without it the relation is discarded
(`-ed` and `-s` words included; nothing is guessed). -/
theorem c2_amended (w : String) :
    extract_form_of_base_s w "inflection of jump." =
      if "ing".toList.isSuffixOf w.toList = true then some ("present participle", "jump")
      else none := by
  by_cases h : "ing".toList.isSuffixOf w.toList = true
  · rw [if_pos h]
    show Option.map _ (if ¬("ing".toList.isSuffixOf w.toList = true) then none
      else some ("present participle".toList, "jump".toList)) = some ("present participle", "jump")
    rw [if_neg (not_not_intro h)]
    rfl
  · rw [if_neg h]
    show Option.map _ (if ¬("ing".toList.isSuffixOf w.toList = true) then none
      else some ("present participle".toList, "jump".toList)) = none
    rw [if_pos h]
    rfl

/-- Claim C3, counterexample.  The claim asserts that an inflected word
which also has definitions of its own is emitted after its lemma; the
output loop of `main` never consults the definitions and always skips a
redirected word, so the outputs differ from the claimed behaviour. -/
theorem c3_counterexample :
    compose_output ["jumped"] [("jumped", ["jump"])] = ["jump"] ∧
    compose_output_claimed ["jumped"] [("jumped", ["jump"])] (fun _ => true) =
      ["jump", "jumped"] ∧
    compose_output ["jumped"] [("jumped", ["jump"])] ≠
      compose_output_claimed ["jumped"] [("jumped", ["jump"])] (fun _ => true) := by
  decide

/-- Claim C3, amended: a word with a recorded form relation is redirected
to the lexicographically smallest lemma and is itself always skipped —
even when it has definitions of its own (they are simply dropped). -/
theorem c3_amended :
    ∀ (w : String) (bs : List String), bs ≠ [] → sorted_head bs ≠ "" →
      compose_output [w] [(w, bs)] = [sorted_head bs] :=
  fun w bs h1 h2 => compose_single w bs h1 h2

/-- Witness for the amended claim C3, with the spec's determinism example:
candidates `zebra`/`anteater` resolve to `anteater`. -/
theorem c3_witness :
    (["zebra", "anteater"] : List String) ≠ [] ∧
    sorted_head ["zebra", "anteater"] = "anteater" ∧
    compose_output ["word"] [("word", ["zebra", "anteater"])] =
      [sorted_head ["zebra", "anteater"]] :=
  ⟨by decide, by decide, c3_amended "word" ["zebra", "anteater"] (by decide) (by decide)⟩

/-- Claim C4, counterexample.  The claim asserts a page lacking its text
field is skipped without error; in the code `elem.find(".//{*}text")`
returns `None` for such a page and `text_elem.text` then raises an
`AttributeError`, aborting the scan. -/
theorem c4_counterexample :
    parse_definitions ed_toy [⟨some "cat", none⟩] ["cat"] [] [] true [] =
      .error "AttributeError" := by
  decide

/-- Claim C4, amended: a page lacking its title (or whose title text is
empty) is skipped and the scan continues with the remaining pages, and a
present-but-empty text element is tolerated as the empty string; a page
whose text element is missing, with a matching title, raises instead of
being skipped. -/
theorem c4_amended :
    (∀ ed st t, process_page ed st ⟨none, t⟩ = .ok st) ∧
    (∀ ed st t ps, run_pages ed (⟨none, t⟩ :: ps) st = run_pages ed ps st) ∧
    (∀ ed st (T : String), T ≠ "" → py_lower_s (py_strip_s T) ∈ st.targets →
      ed "" = [] → process_page ed st ⟨some T, some none⟩ =
        .ok { st with seen := insert_new st.seen (py_lower_s (py_strip_s T)) }) ∧
    (∀ ed st (T : String), T ≠ "" → py_lower_s (py_strip_s T) ∈ st.targets →
      process_page ed st ⟨some T, none⟩ = .error "AttributeError") := by
  refine ⟨fun ed st t => rfl, fun ed st t ps => rfl, ?_, ?_⟩
  · intro ed st T hT hmem hed
    unfold process_page
    dsimp only
    rw [if_neg hT, if_neg (not_not_intro hmem)]
    dsimp only [Option.getD]
    rw [hed, if_pos rfl]
  · intro ed st T hT hmem
    unfold process_page
    dsimp only
    rw [if_neg hT, if_neg (not_not_intro hmem)]

/-- Witness for the amended claim C4 at a concrete state and page. -/
theorem c4_witness :
    ("cat" : String) ≠ "" ∧
    py_lower_s (py_strip_s "cat") ∈ (⟨["cat"], [], [], [], [], true⟩ : PDState).targets ∧
    process_page ed_toy ⟨["cat"], [], [], [], [], true⟩ ⟨some "cat", none⟩ =
      .error "AttributeError" :=
  ⟨by decide, by decide,
    c4_amended.2.2.2 ed_toy ⟨["cat"], [], [], [], [], true⟩ "cat" (by decide) (by decide)⟩

/-- Claim C5, confirmed: the template scan only splits its input (bounded
by the input length), reports failure — never a throw — when no `}}`
exists, the expander then passes the text through as literal characters,
and `_strip_templates` renders a fully unterminated span to the empty
string.  Totality over arbitrary input is inherent in the embedding: all
scanners are terminating functions. -/
theorem c5 :
    (∀ (cs : List Char) (d : Nat) (p : List Char × List Char),
      extract_loop cs d = some p → p.1 ++ p.2 = cs) ∧
    (∀ cs : List Char, has_close cs = false → ∀ d, extract_loop cs d = none) ∧
    (∀ cs : List Char, has_close cs = false → ∀ f, cs.length ≤ f → expandF f cs = cs) ∧
    (∀ s : String, has_close s.toList = false → expand_templates s = s) ∧
    (∀ cs : List Char, has_close cs = false → strip_templates ('{' :: '{' :: cs) = []) := by
  refine ⟨extract_loop_append, extract_loop_noclose,
    fun cs h f hf => expandF_noclose_id f cs hf h, ?_, ?_⟩
  · intro s h
    unfold expand_templates
    have hlen : s.toList.length ≤ (s.length + 1) * (s.length + 1) := len_le_fuel s.length
    rw [expandF_noclose_id ((s.length + 1) * (s.length + 1)) s.toList hlen h]
    rfl
  · intro cs h
    unfold strip_templates
    have step : strip_loop ('{' :: '{' :: cs) 0 = strip_loop cs 1 := by
      simp [strip_loop]
    rw [step]
    exact strip_loop_pos_empty cs h 1 Nat.one_pos

/-- Witness for claim C5 at concrete unterminated inputs. -/
theorem c5_witness :
    has_close "\x7b\x7babc".toList = false ∧
    extract_loop "\x7b\x7babc".toList 0 = none ∧
    expand_templates "\x7b\x7babc" = "\x7b\x7babc" ∧
    strip_templates ('\x7b' :: '\x7b' :: "abc".toList) = [] ∧
    "\x7b\x7bx\x7d\x7d".toList ++ "t".toList = "\x7b\x7bx\x7d\x7dt".toList :=
  ⟨by decide, c5.2.1 _ (by decide) 0, c5.2.2.2.1 _ (by decide),
    c5.2.2.2.2 _ (by decide),
    c5.1 "\x7b\x7bx\x7d\x7dt".toList 0 ("\x7b\x7bx\x7d\x7d".toList, "t".toList) (by decide)⟩

/-- Claim C6, counterexample.  Input word `a`; the dump holds page `b`
(gloss `plural of c.`) before page `a` (gloss `plural of b.`).  Pass 1
sees only `a` and discovers `b`; pass 2 resolves `b`, whose gloss points
at `c` — a lemma first discoverable only during pass 2.  The claim says
`c` is reported in the aggregate missing count; in fact pass 2 runs with
`extra_targets=None`, `c` is never recorded anywhere, and the missing
list is empty. -/
theorem c6_counterexample :
    main_run ed_toy
      [⟨some "b", some (some "plural of c.")⟩, ⟨some "a", some (some "plural of b.")⟩]
      ["a"] =
    .ok ⟨["b"], [], 2,
      [("a", [("english", "noun", "plural of b.")]),
       ("b", [("english", "noun", "plural of c.")])]⟩ := by
  decide

/-- Claim C6, amended: at most two passes run, the second restricted to
the pass-1 extra targets not yet seen, and it can never trigger a third —
a pass with frontier tracking disabled returns `form_of_map` and
`extra_targets` exactly as given, recording nothing new.  Lemmas first
discoverable during pass 2 are therefore neither chased nor counted:
the missing report only ever draws from the original targets and the
pass-1 extra targets. -/
theorem c6_amended :
    (∀ ed pages tws d0 f0 e0 res,
      parse_definitions ed pages tws d0 f0 false e0 = .ok res →
        res.form_of_map = f0 ∧ res.extra_targets = e0) ∧
    (∀ ed pages words res, main_run ed pages words = .ok res →
      ∃ st1, parse_definitions ed pages words.dedup [] [] true [] = .ok st1 ∧
        ∀ w ∈ res.missing, w ∈ words.dedup ∨ w ∈ st1.extra_targets) := by
  constructor
  · intro ed pages tws d0 f0 e0 res h
    unfold parse_definitions at h
    dsimp only at h
    cases hr : run_pages ed pages ⟨tws.dedup, [], d0, f0, e0, false⟩ with
    | error e => rw [hr] at h; exact absurd h (by simp)
    | ok st =>
      rw [hr] at h
      dsimp only at h
      replace h := Except.ok.inj h
      subst h
      obtain ⟨hf, he, _⟩ := run_pages_fixed ed pages _ st hr rfl
      exact ⟨hf, he⟩
  · intro ed pages words res h
    unfold main_run at h
    dsimp only at h
    cases hp1 : parse_definitions ed pages words.dedup [] [] true [] with
    | error e => rw [hp1] at h; exact absurd h (by simp)
    | ok st1 =>
      rw [hp1] at h
      dsimp only at h
      refine ⟨st1, rfl, ?_⟩
      by_cases hx : st1.extra_targets ≠ []
      · rw [if_pos hx] at h
        by_cases hm : st1.extra_targets.filter (fun w => w ∉ st1.seen) ≠ []
        · rw [if_pos hm] at h
          cases hp2 : parse_definitions ed pages
              (st1.extra_targets.filter (fun w => w ∉ st1.seen))
              st1.definitions st1.form_of_map false [] with
          | error e => rw [hp2] at h; exact absurd h (by simp)
          | ok st2 =>
            rw [hp2] at h
            dsimp only at h
            replace h := Except.ok.inj h
            subst h
            exact fun w hw => mem_main_finish_missing hw
        · rw [if_neg hm] at h
          replace h := Except.ok.inj h
          subst h
          exact fun w hw => mem_main_finish_missing hw
      · rw [if_neg hx] at h
        replace h := Except.ok.inj h
        subst h
        exact fun w hw => mem_main_finish_missing hw

/-- Witness for the amended claim C6 at concrete runs. -/
theorem c6_witness :
    (parse_definitions ed_toy [⟨some "x", some (some "hello")⟩] ["x"] []
        [("k", ["v"])] false ["e"] =
      .ok ⟨[("x", [("english", "noun", "hello")])], ["x"], [("k", ["v"])], ["e"]⟩) ∧
    ((⟨[("x", [("english", "noun", "hello")])], ["x"], [("k", ["v"])], ["e"]⟩ :
        PDResult).form_of_map = [("k", ["v"])] ∧
     (⟨[("x", [("english", "noun", "hello")])], ["x"], [("k", ["v"])], ["e"]⟩ :
        PDResult).extra_targets = ["e"]) ∧
    (∃ st1, parse_definitions ed_toy [⟨some "x", some (some "hello")⟩]
        (["x", "y"] : List String).dedup [] [] true [] = .ok st1 ∧
      ∀ w ∈ (⟨["x", "y"], ["y"], 1, [("x", [("english", "noun", "hello")])]⟩ :
          MainResult).missing, w ∈ (["x", "y"] : List String).dedup ∨ w ∈ st1.extra_targets) :=
  ⟨by decide,
   c6_amended.1 ed_toy [⟨some "x", some (some "hello")⟩] ["x"] [] [("k", ["v"])] ["e"]
     ⟨[("x", [("english", "noun", "hello")])], ["x"], [("k", ["v"])], ["e"]⟩ (by decide),
   c6_amended.2 ed_toy [⟨some "x", some (some "hello")⟩] ["x", "y"]
     ⟨["x", "y"], ["y"], 1, [("x", [("english", "noun", "hello")])]⟩ (by decide)⟩

/-- Claim C7, confirmed: the template splitter cuts only on `|` at brace
depth 0 and link depth 0, so `foo|[[a|b]]|bar` yields exactly three
parts — the pipe inside the wikilink is not a separator. -/
theorem c7 :
    split_template_parts "foo|[[a|b]]|bar" = ["foo", "[[a|b]]", "bar"] ∧
    (split_template_parts "foo|[[a|b]]|bar").length = 3 := by
  decide

/-- Claim C8, counterexample.  The claim says a part whose only `=` lies
inside a nested link is positional; `_parse_template` tests `"=" in param`
— a plain substring test — so `[[a=b]]` becomes a named parameter with key
`[[a` and value `b]]`, not the claimed positional parameter. -/
theorem c8_counterexample :
    parse_template "tpl|[[a=b]]" = ("tpl".toList, [], [("[[a".toList, "b]]".toList)]) ∧
    parse_template "tpl|[[a=b]]" ≠ ("tpl".toList, ["[[a=b]]".toList], []) := by
  decide

/-- Claim C8, amended: the named/positional classification is a plain
substring test for `=` anywhere in the part, blind to nesting — a part
containing `=` never contributes a positional parameter, and a part
without `=` never contributes a named one. -/
theorem c8_amended :
    ∀ (expand : List Char → List Char)
      (acc : List (List Char) × List (List Char × List Char)) (param : List Char),
      ('=' ∈ param → (parse_param_step expand acc param).1 = acc.1) ∧
      ('=' ∉ param → (parse_param_step expand acc param).2 = acc.2) := by
  intro expand acc param
  constructor
  · intro hmem
    have hne : param ≠ [] := by
      intro hp
      rw [hp] at hmem
      simp at hmem
    unfold parse_param_step
    rw [if_neg hne, if_pos hmem]
    dsimp only
    split_ifs <;> rfl
  · intro hmem
    unfold parse_param_step
    by_cases hp : param = []
    · rw [if_pos hp]
    · rw [if_neg hp, if_neg hmem]
      dsimp only
      split_ifs <;> rfl

/-- Witness for the amended claim C8 at concrete parts. -/
theorem c8_witness :
    ('=' ∈ "[[a=b]]".toList) ∧
    (parse_param_step (expandF 9)
      (([], []) : List (List Char) × List (List Char × List Char)) "[[a=b]]".toList).1 = [] ∧
    ('=' ∉ "pos".toList) ∧
    (parse_param_step (expandF 9)
      (([], []) : List (List Char) × List (List Char × List Char)) "pos".toList).2 = [] :=
  ⟨by decide,
   (c8_amended (expandF 9) ([], []) "[[a=b]]".toList).1 (by decide),
   by decide,
   (c8_amended (expandF 9) ([], []) "pos".toList).2 (by decide)⟩

/-- Claim C9, confirmed: template expansion is the identity on any text
without a `{{` occurrence, hence idempotent on its own fixed points. -/
theorem c9 :
    ∀ s : String, has_open s.toList = false →
      expand_templates s = s ∧
      expand_templates (expand_templates s) = expand_templates s := by
  intro s h
  have h1 : expand_templates s = s := by
    unfold expand_templates
    have hlen : s.toList.length ≤ (s.length + 1) * (s.length + 1) := len_le_fuel s.length
    rw [expandF_noopen_id ((s.length + 1) * (s.length + 1)) s.toList hlen h]
    rfl
  exact ⟨h1, by rw [h1, h1]⟩

/-- Witness for claim C9 on concrete plain text. -/
theorem c9_witness :
    has_open "hello world".toList = false ∧ expand_templates "hello world" = "hello world" :=
  ⟨by decide, (c9 "hello world" (by decide)).1⟩

/-- Claim C10, confirmed: `parse_definitions` communicates with its caller
only through the returned `(definitions, seen)` pair and the supplied
`form_of_map`/`extra_targets` accumulators — the local `targets` copy of
the `target_words` argument is not part of the result — and those
accumulators only grow: every definitions entry is extended append-only,
every caller-supplied extra target survives, and every form-of edge set
only gains members. -/
theorem c10_frame :
    ∀ ed pages tws d0 f0 en e0 res,
      parse_definitions ed pages tws d0 f0 en e0 = .ok res →
      (∀ k v, d0.lookup k = some v →
        ∃ v2, res.definitions.lookup k = some v2 ∧ v <+: v2) ∧
      (∀ x, x ∈ e0 → x ∈ res.extra_targets) ∧
      (∀ k s, f0.lookup k = some s →
        ∃ s2, res.form_of_map.lookup k = some s2 ∧ ∀ y ∈ s, y ∈ s2) := by
  intro ed pages tws d0 f0 en e0 res h
  unfold parse_definitions at h
  dsimp only at h
  cases hr : run_pages ed pages ⟨tws.dedup, [], d0, f0, e0, en⟩ with
  | error e => rw [hr] at h; exact absurd h (by simp)
  | ok st =>
    rw [hr] at h
    dsimp only at h
    replace h := Except.ok.inj h
    subst h
    obtain ⟨hd, he, hf, _, _⟩ := run_pages_grows ed pages _ st hr
    exact ⟨hd, he, hf⟩

/-- Witness for claim C10 at a concrete run with pre-seeded accumulators. -/
theorem c10_witness :
    (parse_definitions ed_toy [⟨some "cat", some (some "x")⟩] ["cat"]
        [("dog", [("english", "noun", "a dog")])] [("dog", ["d"])] true ["zz"] =
      .ok ⟨[("dog", [("english", "noun", "a dog")]), ("cat", [("english", "noun", "x")])],
        ["cat"], [("dog", ["d"])], ["zz"]⟩) ∧
    (∃ v2, (⟨[("dog", [("english", "noun", "a dog")]), ("cat", [("english", "noun", "x")])],
        ["cat"], [("dog", ["d"])], ["zz"]⟩ : PDResult).definitions.lookup "dog" = some v2 ∧
      [("english", "noun", "a dog")] <+: v2) ∧
    ("zz" ∈ (⟨[("dog", [("english", "noun", "a dog")]), ("cat", [("english", "noun", "x")])],
        ["cat"], [("dog", ["d"])], ["zz"]⟩ : PDResult).extra_targets) ∧
    (∃ s2, (⟨[("dog", [("english", "noun", "a dog")]), ("cat", [("english", "noun", "x")])],
        ["cat"], [("dog", ["d"])], ["zz"]⟩ : PDResult).form_of_map.lookup "dog" = some s2 ∧
      ∀ y ∈ (["d"] : List String), y ∈ s2) :=
  ⟨by decide,
   (c10_frame ed_toy [⟨some "cat", some (some "x")⟩] ["cat"]
     [("dog", [("english", "noun", "a dog")])] [("dog", ["d"])] true ["zz"] _
     (by decide)).1 "dog" _ (by decide),
   (c10_frame ed_toy [⟨some "cat", some (some "x")⟩] ["cat"]
     [("dog", [("english", "noun", "a dog")])] [("dog", ["d"])] true ["zz"] _
     (by decide)).2.1 "zz" (by decide),
   (c10_frame ed_toy [⟨some "cat", some (some "x")⟩] ["cat"]
     [("dog", [("english", "noun", "a dog")])] [("dog", ["d"])] true ["zz"] _
     (by decide)).2.2 "dog" _ (by decide)⟩
